import Mathlib

/-!
# QskStackBox — a shallow embedding of src/src/layouts/QskStackBox.cpp

The stack box shows at most one of its children at a time.  This file embeds
the current-index state machine (setCurrentIndex, setCurrentItem,
layoutItemInserted, layoutItemRemoved) and the sizing algorithms
(qskConstrainedValue, heightForWidth, widthForHeight, layoutItemsSizeHint)
as executable Lean functions, and proves or refutes the specified properties.

The embedding covers the synchronous regime: either no animator is attached,
or the window/visible/initially-painted guard of setCurrentIndex is false, so
the `else` branch of setCurrentIndex (direct visibility toggling) runs.  The
animator interaction is tracked as a list of emitted animator commands; the
only command that can be issued in this regime is `stop`.
-/

namespace QskStackBox

/-- A child view of the stack: an identity (used by setCurrentItem / indexOf)
plus its visibility flag.  Mirrors the QQuickItem* entries of the layout
engine's item list. -/
structure Child where
  ident : Nat
  visible : Bool
  deriving DecidableEq, Repr

/-- The container state: the ordered child list (owned by the layout engine)
and PrivateData::currentIndex. -/
structure StackState where
  children : List Child
  currentIndex : Int
  deriving DecidableEq, Repr

/-- Commands a QskStackBoxAnimator can receive from the container. -/
inductive AnimCmd where
  | stop
  | setStartIndex (i : Int)
  | setEndIndex (i : Int)
  | setWindow
  | start
  deriving DecidableEq, Repr

/-- The initial state: PrivateData() sets currentIndex to -1, no children. -/
def initState : StackState := { children := [], currentIndex := -1 }

/-- itemAtIndex: the child at an index, none when the index is out of range
(the engine returns a null item there). -/
def itemAtIndex : List Child → Int → Option Child
  | [], _ => none
  | c :: cs, k => if k = 0 then some c else itemAtIndex cs (k - 1)

/-- indexOf: the index of the child with the given identity, -1 when absent. -/
def indexOf (cs : List Child) (target : Nat) : Int :=
  match cs.findIdx? (fun c => c.ident = target) with
  | some i => (i : Int)
  | none => -1

/-- item->setVisible(b) on the child at position k; a no-op when k is out of
range (a null item pointer in the source). -/
def setVis : List Child → Int → Bool → List Child
  | [], _, _ => []
  | c :: cs, k, b =>
    if k = 0 then { c with visible := b } :: cs
    else c :: setVis cs (k - 1) b

/-- The index clamping at the top of setCurrentIndex:
`if ( index < 0 || index >= itemCount() ) index = -1;`. -/
def clampIndex (s : StackState) (i : Int) : Int :=
  if i < 0 ∨ (s.children.length : Int) ≤ i then -1 else i

/-- QskStackBox::setCurrentIndex in the synchronous regime (the
window/visible/painted guard is false, so the direct-visibility branch runs;
`ha` records whether an animator is attached, in which case a committed change
stops it first).  Returns the new state, the currentIndexChanged emissions,
and the animator commands issued. -/
def setCurrentIndex (ha : Bool) (s : StackState) (i : Int) :
    StackState × List Int × List AnimCmd :=
  let index := clampIndex s i
  if index = s.currentIndex then
    (s, [], [])
  else
    let cmds := if ha then [AnimCmd.stop] else []
    let cs := setVis s.children s.currentIndex false
    let cs := setVis cs index true
    ({ children := cs, currentIndex := index }, [index], cmds)

/-- QskStackBox::setCurrentItem: resolve the item to its index and delegate. -/
def setCurrentItem (ha : Bool) (s : StackState) (target : Nat) :
    StackState × List Int × List AnimCmd :=
  setCurrentIndex ha s (indexOf s.children target)

/-- Insert a child at a position of the list; out-of-range positions leave the
list unchanged (the engine never produces them). -/
def insertChild : List Child → Nat → Child → List Child
  | cs, 0, c => c :: cs
  | [], _ + 1, _ => []
  | x :: cs, n + 1, c => x :: insertChild cs n c

/-- Remove the child at a position of the list; out-of-range positions leave
the list unchanged. -/
def eraseChild : List Child → Nat → List Child
  | [], _ => []
  | _ :: cs, 0 => cs
  | c :: cs, n + 1 => c :: eraseChild cs n

/-- QskStackBox::layoutItemInserted, invoked by the engine after the child was
inserted at `index` (so `s.children` already holds it).  The
retainSizeWhenHidden flag is layout-engine bookkeeping and is not modelled. -/
def layoutItemInserted (s : StackState) (index : Nat) : StackState × List Int :=
  if s.children.length = 1 then
    ({ children := setVis s.children (index : Int) true, currentIndex := 0 }, [0])
  else
    ({ children := setVis s.children (index : Int) false,
       currentIndex := s.currentIndex }, [])

/-- Engine insertion followed by the layoutItemInserted hook. -/
def insertItemAt (s : StackState) (pos : Nat) (c : Child) : StackState × List Int :=
  layoutItemInserted { s with children := insertChild s.children pos c } pos

/-- QskStackBox::layoutItemRemoved, invoked by the engine after the child at
`index` was removed (so `s.children` is the post-removal list).  The
transpose/transpose engine repair is internal to QGridLayoutEngine and has no
effect on the modelled state. -/
def layoutItemRemoved (ha : Bool) (s : StackState) (index : Int) :
    StackState × List Int × List AnimCmd :=
  if index = s.currentIndex then
    let newIndex :=
      if s.currentIndex = (s.children.length : Int) then s.currentIndex - 1
      else s.currentIndex
    let s2 : StackState := { s with currentIndex := -1 }
    if 0 ≤ newIndex then
      setCurrentIndex ha s2 index
    else
      (s2, [], [])
  else if index < s.currentIndex then
    ({ s with currentIndex := s.currentIndex - 1 }, [], [])
  else
    (s, [], [])

/-- Engine removal followed by the layoutItemRemoved hook. -/
def removeItemAt (ha : Bool) (s : StackState) (pos : Nat) :
    StackState × List Int × List AnimCmd :=
  layoutItemRemoved ha { s with children := eraseChild s.children pos } (pos : Int)

/-! ## Operation sequences and the visibility invariant -/

/-- One mutation of the container: an engine insertion (with its hook), an
engine removal (with its hook), or one of the public index setters. -/
inductive Op where
  | insertAt (pos : Nat) (c : Child)
  | removeAt (pos : Nat)
  | setIndex (i : Int)
  | setItem (target : Nat)
  deriving DecidableEq, Repr

/-- The state after one operation (notifications and animator commands
dropped). -/
def stepState (ha : Bool) (s : StackState) : Op → StackState
  | .insertAt pos c => (insertItemAt s pos c).1
  | .removeAt pos => (removeItemAt ha s pos).1
  | .setIndex i => (setCurrentIndex ha s i).1
  | .setItem t => (setCurrentItem ha s t).1

/-- The notifications emitted by one operation. -/
def stepNotifs (ha : Bool) (s : StackState) : Op → List Int
  | .insertAt pos c => (insertItemAt s pos c).2
  | .removeAt pos => (removeItemAt ha s pos).2.1
  | .setIndex i => (setCurrentIndex ha s i).2.1
  | .setItem t => (setCurrentItem ha s t).2.1

/-- Run a sequence of operations from a state. -/
def run (ha : Bool) : StackState → List Op → StackState
  | s, [] => s
  | s, op :: ops => run ha (stepState ha s op) ops

/-- `onlyVisibleAt cs k`: the child at position `k` is the only visible one
(every position `j` holds a visible child exactly when `j = k`; for `k`
outside the list, every child is invisible). -/
def onlyVisibleAt : List Child → Int → Prop
  | [], _ => True
  | c :: cs, k => (c.visible = true ↔ k = 0) ∧ onlyVisibleAt cs (k - 1)

instance instDecOnlyVisibleAt : (cs : List Child) → (k : Int) →
    Decidable (onlyVisibleAt cs k)
  | [], _ => .isTrue trivial
  | _ :: cs, k =>
    have : Decidable (onlyVisibleAt cs (k - 1)) := instDecOnlyVisibleAt cs (k - 1)
    instDecidableAnd

/-- currentIndex is -1 or a valid position: §4.1
"States: currentIndex ∈ \x7b-1\x7d ∪ [0, itemCount)". -/
def indexOK (s : StackState) : Prop :=
  s.currentIndex = -1 ∨ (0 ≤ s.currentIndex ∧ s.currentIndex < (s.children.length : Int))

instance (s : StackState) : Decidable (indexOK s) := by
  unfold indexOK; infer_instance

/-- The specified invariant: a well-formed currentIndex, and visibility held
exactly by the child at currentIndex (so no child is visible when
currentIndex = -1). -/
def Inv (s : StackState) : Prop :=
  indexOK s ∧ onlyVisibleAt s.children s.currentIndex

instance (s : StackState) : Decidable (Inv s) := by
  unfold Inv; infer_instance

/-- The engine's calling contract for one operation, plus — for insertions —
the restriction that makes the visibility invariant survive: the insertion
position lies strictly after the current index (appends, and any insertion
into a stack without a current child, satisfy it). -/
def goodOp (s : StackState) : Op → Prop
  | .insertAt pos _ => s.currentIndex < (pos : Int) ∧ pos ≤ s.children.length
  | .removeAt pos => pos < s.children.length
  | .setIndex _ => True
  | .setItem _ => True

instance (s : StackState) (op : Op) : Decidable (goodOp s op) := by
  cases op <;> (unfold goodOp; infer_instance)

/-- Every operation of the sequence satisfies `goodOp` at the state where it
runs. -/
def goodRun (ha : Bool) : StackState → List Op → Prop
  | _, [] => True
  | s, op :: ops => goodOp s op ∧ goodRun ha (stepState ha s op) ops

instance instDecGoodRun (ha : Bool) : (s : StackState) → (ops : List Op) →
    Decidable (goodRun ha s ops)
  | _, [] => .isTrue trivial
  | s, op :: ops =>
    have : Decidable (goodRun ha (stepState ha s op) ops) :=
      instDecGoodRun ha (stepState ha s op) ops
    instDecidableAnd

/-! ## Helper lemmas about the child-list primitives -/

/-- Every child of the list is invisible. -/
def allInvisible (cs : List Child) : Prop := ∀ c ∈ cs, c.visible = false

lemma setVis_length (cs : List Child) (k : Int) (b : Bool) :
    (setVis cs k b).length = cs.length := by
  induction cs generalizing k with
  | nil => rfl
  | cons c cs ih =>
    by_cases h : k = 0 <;> simp [setVis, h, ih]

lemma setVis_neg (cs : List Child) (k : Int) (b : Bool) (hk : k < 0) :
    setVis cs k b = cs := by
  induction cs generalizing k with
  | nil => rfl
  | cons c cs ih =>
    have h : ¬ k = 0 := by omega
    simp [setVis, h, ih (k - 1) (by omega)]

lemma onlyVisibleAt_of_allInvisible {cs : List Child} {k : Int}
    (h : allInvisible cs) (hk : k < 0) : onlyVisibleAt cs k := by
  induction cs generalizing k with
  | nil => trivial
  | cons c cs ih =>
    refine ⟨?_, ih (fun x hx => h x (by simp [hx])) (by omega)⟩
    have := h c (by simp)
    constructor
    · intro hv; rw [this] at hv; cases hv
    · intro h0; omega

lemma allInvisible_of_onlyVisibleAt {cs : List Child} {k : Int}
    (h : onlyVisibleAt cs k) (hk : k < 0) : allInvisible cs := by
  induction cs generalizing k with
  | nil => intro c hc; cases hc
  | cons c cs ih =>
    intro x hx
    rw [List.mem_cons] at hx
    rcases hx with rfl | hx
    · rcases h with ⟨h1, _⟩
      cases hv : x.visible
      · rfl
      · exact absurd (h1.mp hv) (by omega)
    · exact ih h.2 (by omega) x hx

lemma allInvisible_setVis_false {cs : List Child} {k : Int}
    (h : onlyVisibleAt cs k) : allInvisible (setVis cs k false) := by
  induction cs generalizing k with
  | nil => intro c hc; cases hc
  | cons c cs ih =>
    by_cases h0 : k = 0
    · intro x hx
      rw [setVis, if_pos h0, List.mem_cons] at hx
      rcases hx with rfl | hx
      · rfl
      · exact allInvisible_of_onlyVisibleAt h.2 (by omega) x hx
    · intro x hx
      rw [setVis, if_neg h0, List.mem_cons] at hx
      rcases hx with rfl | hx
      · cases hv : x.visible
        · rfl
        · exact absurd (h.1.mp hv) h0
      · exact ih h.2 x hx

lemma onlyVisibleAt_setVis_true {cs : List Child} {j : Int}
    (h : allInvisible cs) (h0 : 0 ≤ j) (hj : j < (cs.length : Int)) :
    onlyVisibleAt (setVis cs j true) j := by
  induction cs generalizing j with
  | nil => simp at hj; omega
  | cons c cs ih =>
    by_cases hz : j = 0
    · subst hz
      rw [setVis, if_pos rfl]
      exact ⟨by simp, onlyVisibleAt_of_allInvisible
        (fun x hx => h x (by simp [hx])) (by omega)⟩
    · rw [setVis, if_neg hz]
      refine ⟨?_, ih (fun x hx => h x (by simp [hx])) (by omega) (by simp at hj ⊢; omega)⟩
      constructor
      · intro hv; exact absurd (h c (by simp)) (by simp [hv])
      · intro hc; exact absurd hc hz

lemma clampIndex_ok (s : StackState) (i : Int) :
    clampIndex s i = -1 ∨
      (0 ≤ clampIndex s i ∧ clampIndex s i < (s.children.length : Int)) := by
  unfold clampIndex
  by_cases h : i < 0 ∨ (s.children.length : Int) ≤ i
  · left; rw [if_pos h]
  · right; rw [if_neg h]; omega

/-- setCurrentIndex preserves the visibility invariant. -/
lemma inv_setCurrentIndex (ha : Bool) (s : StackState) (i : Int) (h : Inv s) :
    Inv (setCurrentIndex ha s i).1 := by
  unfold setCurrentIndex
  by_cases he : clampIndex s i = s.currentIndex
  · rw [if_pos he]; exact h
  · rw [if_neg he]
    have hall : allInvisible (setVis s.children s.currentIndex false) :=
      allInvisible_setVis_false h.2
    rcases clampIndex_ok s i with hc | hc
    · refine ⟨Or.inl (by simp [hc]), ?_⟩
      simp only [hc]
      rw [setVis_neg _ _ _ (by omega)]
      exact onlyVisibleAt_of_allInvisible hall (by omega)
    · refine ⟨Or.inr (by simp [setVis_length]; omega), ?_⟩
      exact onlyVisibleAt_setVis_true hall hc.1 (by rw [setVis_length]; exact hc.2)

lemma insertChild_length (cs : List Child) (pos : Nat) (c : Child)
    (h : pos ≤ cs.length) : (insertChild cs pos c).length = cs.length + 1 := by
  induction cs generalizing pos with
  | nil =>
    have h0 : pos = 0 := by simpa using h
    subst h0; rfl
  | cons x cs ih =>
    cases pos with
    | zero => rfl
    | succ n => simp [insertChild, ih n (by simpa using h)]

lemma eraseChild_length (cs : List Child) (pos : Nat) (h : pos < cs.length) :
    (eraseChild cs pos).length = cs.length - 1 := by
  induction cs generalizing pos with
  | nil => simp at h
  | cons x cs ih =>
    cases pos with
    | zero => rfl
    | succ n =>
      have hn : n < cs.length := by simpa using h
      simp [eraseChild, ih n hn]
      omega

/-- Inserting strictly after the distinguished index, then hiding the new
child, keeps the distinguished index the only visible one. -/
lemma onlyVisibleAt_insert {cs : List Child} {k : Int} {pos : Nat} {c : Child}
    (h : onlyVisibleAt cs k) (hk : k < (pos : Int)) (hp : pos ≤ cs.length) :
    onlyVisibleAt (setVis (insertChild cs pos c) (pos : Int) false) k := by
  induction pos generalizing cs k with
  | zero =>
    have hneg : k < 0 := by omega
    have hstep : setVis (insertChild cs 0 c) ((0 : Nat) : Int) false =
        { c with visible := false } :: cs := by
      simp [insertChild, setVis]
    rw [hstep]
    refine ⟨⟨fun hv => by simp at hv, fun h0 => absurd h0 (by omega)⟩, ?_⟩
    exact onlyVisibleAt_of_allInvisible
      (allInvisible_of_onlyVisibleAt h hneg) (by omega)
  | succ n ih =>
    cases cs with
    | nil => simp at hp
    | cons x rest =>
      have hstep : insertChild (x :: rest) (n + 1) c = x :: insertChild rest n c := rfl
      rw [hstep, setVis, if_neg (by omega)]
      have hcast : ((n + 1 : Nat) : Int) - 1 = (n : Int) := by push_cast; ring
      rw [hcast]
      exact ⟨h.1, ih h.2 (by omega) (by simpa using hp)⟩

/-- Erasing the distinguished (only visible) child leaves every child
invisible. -/
lemma allInvisible_erase_self {cs : List Child} {pos : Nat}
    (h : onlyVisibleAt cs (pos : Int)) : allInvisible (eraseChild cs pos) := by
  induction cs generalizing pos with
  | nil => intro x hx; cases hx
  | cons x rest ih =>
    cases pos with
    | zero => exact allInvisible_of_onlyVisibleAt h.2 (by omega)
    | succ n =>
      intro y hy
      rw [eraseChild, List.mem_cons] at hy
      rcases hy with rfl | hy
      · cases hv : y.visible
        · rfl
        · have := h.1.mp hv; omega
      · have h2 : onlyVisibleAt rest (n : Int) := by
          have hcast : ((n + 1 : Nat) : Int) - 1 = (n : Int) := by push_cast; ring
          have := h.2; rwa [hcast] at this
        exact ih h2 y hy

/-- Erasing a child strictly before the distinguished index shifts it down by
one. -/
lemma onlyVisibleAt_erase_lt {cs : List Child} {k : Int} {pos : Nat}
    (h : onlyVisibleAt cs k) (hpk : (pos : Int) < k) :
    onlyVisibleAt (eraseChild cs pos) (k - 1) := by
  induction cs generalizing pos k with
  | nil => trivial
  | cons x rest ih =>
    cases pos with
    | zero => exact h.2
    | succ n =>
      rw [eraseChild]
      refine ⟨?_, ?_⟩
      · constructor
        · intro hv
          have := h.1.mp hv
          exact absurd this (by push_cast at hpk; omega)
        · intro h0
          exact absurd h0 (by push_cast at hpk; omega)
      · exact ih h.2 (show (n : Int) < k - 1 by push_cast at hpk ⊢; omega)

/-- Erasing a child strictly after the distinguished index leaves it in
place. -/
lemma onlyVisibleAt_erase_gt {cs : List Child} {k : Int} {pos : Nat}
    (h : onlyVisibleAt cs k) (hkp : k < (pos : Int)) :
    onlyVisibleAt (eraseChild cs pos) k := by
  induction cs generalizing pos k with
  | nil => trivial
  | cons x rest ih =>
    cases pos with
    | zero =>
      have hneg : k < 0 := by omega
      show onlyVisibleAt rest k
      exact onlyVisibleAt_of_allInvisible
        (allInvisible_of_onlyVisibleAt h.2 (by omega)) hneg
    | succ n =>
      rw [eraseChild]
      exact ⟨h.1, ih h.2 (by push_cast at hkp ⊢; omega)⟩

/-- Each container operation satisfying the engine contract (and inserting
only after the current index) preserves the invariant. -/
lemma inv_stepState (ha : Bool) (s : StackState) (op : Op)
    (hInv : Inv s) (hop : goodOp s op) : Inv (stepState ha s op) := by
  cases op with
  | setIndex i => exact inv_setCurrentIndex ha s i hInv
  | setItem t => exact inv_setCurrentIndex ha s _ hInv
  | insertAt pos c =>
    rcases hop with ⟨hlt, hle⟩
    show Inv (insertItemAt s pos c).1
    unfold insertItemAt layoutItemInserted
    have hlen : (insertChild s.children pos c).length = s.children.length + 1 :=
      insertChild_length _ _ _ hle
    by_cases h1 : (insertChild s.children pos c).length = 1
    · -- first child: the list was empty, the insertion position 0
      have hnil : s.children = [] := by
        rw [hlen] at h1
        exact List.length_eq_zero.mp (by omega)
      have hp0 : pos = 0 := by
        rw [hnil] at hle
        simpa using hle
      subst hp0
      simp only [hnil, insertChild, h1, if_pos]
      refine ⟨Or.inr (by simp [setVis, hnil]), ?_⟩
      show onlyVisibleAt (setVis [c] ((0 : Nat) : Int) true) 0
      refine ⟨?_, trivial⟩
      simp [setVis]
    · simp only [h1, if_neg, ite_false]
      refine ⟨?_, ?_⟩
      · rcases hInv.1 with hc | hc
        · exact Or.inl hc
        · exact Or.inr ⟨hc.1, by simp [setVis_length, hlen]; omega⟩
      · exact onlyVisibleAt_insert hInv.2 hlt hle
  | removeAt pos =>
    have hpos : pos < s.children.length := hop
    show Inv (removeItemAt ha s pos).1
    unfold removeItemAt layoutItemRemoved
    have hlen : (eraseChild s.children pos).length = s.children.length - 1 :=
      eraseChild_length _ _ hpos
    by_cases hcur : (pos : Int) = s.currentIndex
    · -- the current child was removed
      simp only [hcur, if_pos rfl]
      have hall : allInvisible (eraseChild s.children pos) :=
        allInvisible_erase_self (by rw [hcur]; exact hInv.2)
      have hs2 : Inv { children := eraseChild s.children pos, currentIndex := -1 } :=
        ⟨Or.inl rfl, onlyVisibleAt_of_allInvisible hall (by show (-1 : Int) < 0; omega)⟩
      by_cases hge : (0 : Int) ≤
          (if s.currentIndex = ((eraseChild s.children pos).length : Int)
           then s.currentIndex - 1 else s.currentIndex)
      · rw [if_pos hge]
        exact inv_setCurrentIndex ha _ _ hs2
      · rw [if_neg hge]
        exact hs2
    · have hcast : ((s.children.length - 1 : Nat) : Int) = (s.children.length : Int) - 1 := by
        have h1 : 1 ≤ s.children.length := by omega
        omega
      by_cases hlt : (pos : Int) < s.currentIndex
      · simp only [if_neg hcur, if_pos hlt]
        have hr : 0 ≤ s.currentIndex ∧ s.currentIndex < (s.children.length : Int) := by
          rcases hInv.1 with hc | hc
          · omega
          · exact hc
        refine ⟨Or.inr ⟨?_, ?_⟩, ?_⟩
        · show (0 : Int) ≤ s.currentIndex - 1
          omega
        · show s.currentIndex - 1 < ((eraseChild s.children pos).length : Int)
          rw [hlen, hcast]
          omega
        · exact onlyVisibleAt_erase_lt hInv.2 hlt
      · simp only [if_neg hcur, if_neg hlt]
        have hgt : s.currentIndex < (pos : Int) := by omega
        refine ⟨?_, onlyVisibleAt_erase_gt hInv.2 hgt⟩
        rcases hInv.1 with hc | hc
        · exact Or.inl hc
        · refine Or.inr ⟨hc.1, ?_⟩
          show s.currentIndex < ((eraseChild s.children pos).length : Int)
          rw [hlen, hcast]
          omega

/-- The invariant holds after any good run from an invariant state. -/
lemma inv_run (ha : Bool) (ops : List Op) :
    ∀ s : StackState, Inv s → goodRun ha s ops → Inv (run ha s ops) := by
  induction ops with
  | nil => intro s h _; exact h
  | cons op ops ih =>
    intro s h hg
    exact ih (stepState ha s op) (inv_stepState ha s op h hg.1) hg.2

lemma itemAtIndex_setVis_self (cs : List Child) (k : Int) (b : Bool) :
    itemAtIndex (setVis cs k b) k =
      Option.map (fun c => { c with visible := b }) (itemAtIndex cs k) := by
  induction cs generalizing k with
  | nil => rfl
  | cons c cs ih =>
    by_cases h : k = 0
    · simp [setVis, itemAtIndex, h]
    · simp [setVis, itemAtIndex, h, ih (k - 1)]

lemma itemAtIndex_erase_lt (cs : List Child) (pos : Nat) (k : Int)
    (h : (pos : Int) < k) :
    itemAtIndex (eraseChild cs pos) (k - 1) = itemAtIndex cs k := by
  induction cs generalizing pos k with
  | nil => rfl
  | cons c cs ih =>
    cases pos with
    | zero =>
      have hk : ¬ k = 0 := by omega
      simp [eraseChild, itemAtIndex, hk]
    | succ n =>
      have hk : ¬ k = 0 := by push_cast at h; omega
      have hk1 : ¬ k - 1 = 0 := by push_cast at h; omega
      simp only [eraseChild, itemAtIndex, if_neg hk, if_neg hk1]
      exact ih n (k - 1) (by push_cast at h ⊢; omega)

lemma itemAtIndex_insert_self (cs : List Child) (pos : Nat) (c : Child)
    (h : pos ≤ cs.length) :
    itemAtIndex (insertChild cs pos c) (pos : Int) = some c := by
  induction cs generalizing pos with
  | nil =>
    have h0 : pos = 0 := by simpa using h
    subst h0; rfl
  | cons x cs ih =>
    cases pos with
    | zero => rfl
    | succ n =>
      have hk : ¬ ((n + 1 : Nat) : Int) = 0 := by push_cast; omega
      have hcast : ((n + 1 : Nat) : Int) - 1 = (n : Int) := by push_cast; ring
      simp only [insertChild, itemAtIndex, if_neg hk, hcast]
      exact ih n (by simpa using h)

/-! ## The claims -/

/-- C1 (counterexample): the claimed invariant fails when a child is inserted
at a position at or before the current index.  Starting from the empty stack,
insert child 0 (auto-selected, visible, currentIndex 0), then insert child 1
at position 0: layoutItemInserted ignores the position, so currentIndex stays
0, which now designates the freshly inserted invisible child while the
visible child sits at position 1. -/
theorem C1_counterexample_insert_before_current :
    (run false initState [Op.insertAt 0 ⟨0, false⟩, Op.insertAt 0 ⟨1, false⟩]).currentIndex = 0 ∧
    (run false initState
        [Op.insertAt 0 ⟨0, false⟩, Op.insertAt 0 ⟨1, false⟩]).children.map Child.visible =
      [false, true] ∧
    ¬ Inv (run false initState [Op.insertAt 0 ⟨0, false⟩, Op.insertAt 0 ⟨1, false⟩]) :=
  ⟨rfl, rfl, by decide⟩

/-- C1 (amended): for every sequence of insertions, removals, setCurrentIndex
and setCurrentItem calls in the synchronous no-animator regime, IN WHICH EVERY
INSERTION HAPPENS AT A POSITION STRICTLY AFTER THE CURRENT INDEX (in
particular: appends, and arbitrary insertions while no child is current), at
most one child is visible at any time, the visible child, if any, is exactly
the child at currentIndex, and no child is visible when currentIndex = -1
(this is `Inv`, which also records currentIndex ∈ \x7b-1\x7d ∪ [0, itemCount)). -/
theorem C1_amended_visibility_invariant :
    ∀ ops : List Op, goodRun false initState ops → Inv (run false initState ops) :=
  fun ops hg => inv_run false ops initState (by decide) hg

/-- C1 witness: a concrete good run — append two children, select the second,
remove the first — satisfies the hypothesis and the invariant. -/
theorem C1_amended_visibility_invariant_witness :
    goodRun false initState
      [Op.insertAt 0 ⟨0, false⟩, Op.insertAt 1 ⟨1, false⟩, Op.setIndex 1, Op.removeAt 0] ∧
    Inv (run false initState
      [Op.insertAt 0 ⟨0, false⟩, Op.insertAt 1 ⟨1, false⟩, Op.setIndex 1, Op.removeAt 0]) :=
  ⟨by decide, C1_amended_visibility_invariant _ (by decide)⟩

lemma itemAtIndex_neg (cs : List Child) (k : Int) (hk : k < 0) :
    itemAtIndex cs k = none := by
  induction cs generalizing k with
  | nil => rfl
  | cons c cs ih =>
    have h0 : ¬ k = 0 := by omega
    simp [itemAtIndex, h0, ih (k - 1) (by omega)]

/-- C2 (code evaluation at the failing input): children [A, B] with the
current visible child B at index 1; removing index 1 leaves currentIndex = -1
and emits nothing, where the claim requires the new last index 0.
layoutItemRemoved computes newIndex = 0 but then calls setCurrentIndex with
the stale pre-removal index 1, which clamps to -1 and early-returns. -/
theorem C2_removing_current_last_leaves_no_selection :
    removeItemAt false { children := [⟨0, false⟩, ⟨1, true⟩], currentIndex := 1 } 1 =
      ({ children := [⟨0, false⟩], currentIndex := -1 }, [], []) := by
  decide

/-- C3 (code evaluation at the failing inputs): removing index 0 below
currentIndex 1 commits currentIndex 1 → 0 with no currentIndexChanged
emission (the source marks the spot "currentIndexChanged ???"), and removing
the sole current child commits currentIndex 0 → -1, also with no emission —
both contradict the exactly-one-notification-per-committed-change claim. -/
theorem C3_removal_commits_index_change_without_notification :
    (removeItemAt false { children := [⟨0, false⟩, ⟨1, true⟩], currentIndex := 1 } 0).1.currentIndex = 0 ∧
    (removeItemAt false { children := [⟨0, false⟩, ⟨1, true⟩], currentIndex := 1 } 0).2.1 = [] ∧
    (removeItemAt false { children := [⟨0, true⟩], currentIndex := 0 } 0).1.currentIndex = -1 ∧
    (removeItemAt false { children := [⟨0, true⟩], currentIndex := 0 } 0).2.1 = [] := by
  decide

/-- C4: setCurrentIndex with an index outside [0, itemCount) always results in
currentIndex = -1, and whatever child the previous currentIndex designates is
hidden afterwards; the out-of-range input is normalized by clamping (the model
is a total function), never rejected. -/
theorem C4_out_of_range_clamps_to_no_selection :
    ∀ (ha : Bool) (s : StackState) (i : Int),
      (i < 0 ∨ (s.children.length : Int) ≤ i) →
      (setCurrentIndex ha s i).1.currentIndex = -1 ∧
      (∀ c : Child,
        itemAtIndex (setCurrentIndex ha s i).1.children s.currentIndex = some c →
        c.visible = false) := by
  intro ha s i h
  have hcl : clampIndex s i = -1 := by
    unfold clampIndex
    rw [if_pos h]
  by_cases he : clampIndex s i = s.currentIndex
  · have hc1 : s.currentIndex = -1 := by omega
    simp only [setCurrentIndex, if_pos he]
    refine ⟨hc1, ?_⟩
    intro c hc
    rw [hc1, itemAtIndex_neg s.children (-1) (by omega)] at hc
    cases hc
  · have he' : ¬ (-1 : Int) = s.currentIndex := by rw [hcl] at he; exact he
    constructor
    · show (setCurrentIndex ha s i).1.currentIndex = -1
      simp [setCurrentIndex, hcl, if_neg he']
    intro c hc
    simp only [setCurrentIndex, hcl, if_neg he'] at hc
    rw [setVis_neg _ _ _ (by omega), itemAtIndex_setVis_self] at hc
    cases hx : itemAtIndex s.children s.currentIndex with
    | none => rw [hx] at hc; cases hc
    | some c0 =>
      rw [hx] at hc
      have hc' : some { c0 with visible := false } = some c := hc
      cases hc'
      rfl

/-- C4 witness: the single-child stack showing child 0, asked for index 5. -/
theorem C4_out_of_range_clamps_to_no_selection_witness :
    ((5 : Int) < 0 ∨ (((StackState.mk [⟨0, true⟩] 0).children.length : Int) ≤ 5)) ∧
    ((setCurrentIndex false (StackState.mk [⟨0, true⟩] 0) 5).1.currentIndex = -1 ∧
     (∀ c : Child,
        itemAtIndex (setCurrentIndex false (StackState.mk [⟨0, true⟩] 0) 5).1.children
          (StackState.mk [⟨0, true⟩] 0).currentIndex = some c →
        c.visible = false)) :=
  ⟨by decide, C4_out_of_range_clamps_to_no_selection false (StackState.mk [⟨0, true⟩] 0) 5 (by decide)⟩

/-- C5: setCurrentIndex with any index that clamps to the current value — in
particular setCurrentIndex(currentIndex()) whenever currentIndex is
well-formed — is a no-op: the state (hence every child's visibility) is
unchanged, no currentIndexChanged notification is emitted, and no animator
command (stop/setStartIndex/setEndIndex/setWindow/start) is issued, whether
or not an animator is attached. -/
theorem C5_setCurrentIndex_idempotent :
    ∀ (ha : Bool) (s : StackState),
      (∀ i : Int, clampIndex s i = s.currentIndex →
        setCurrentIndex ha s i = (s, [], [])) ∧
      (indexOK s → setCurrentIndex ha s s.currentIndex = (s, [], [])) := by
  intro ha s
  have hbase : ∀ i : Int, clampIndex s i = s.currentIndex →
      setCurrentIndex ha s i = (s, [], []) := by
    intro i hi
    simp only [setCurrentIndex, if_pos hi]
  refine ⟨hbase, ?_⟩
  intro hok
  apply hbase
  unfold clampIndex
  rcases hok with hc | hc
  · rw [if_pos (Or.inl (by omega))]
    omega
  · rw [if_neg (by omega)]

/-- C5 witness: the two-child stack showing child 0; setting index 0 again,
and setting the out-of-range index -7 on a stack with no current child. -/
theorem C5_setCurrentIndex_idempotent_witness :
    (indexOK (StackState.mk [⟨0, true⟩, ⟨1, false⟩] 0) ∧
      setCurrentIndex true (StackState.mk [⟨0, true⟩, ⟨1, false⟩] 0) 0 =
        (StackState.mk [⟨0, true⟩, ⟨1, false⟩] 0, [], [])) ∧
    (clampIndex (StackState.mk [⟨0, false⟩] (-1)) (-7) =
        (StackState.mk [⟨0, false⟩] (-1)).currentIndex ∧
      setCurrentIndex true (StackState.mk [⟨0, false⟩] (-1)) (-7) =
        (StackState.mk [⟨0, false⟩] (-1), [], [])) :=
  ⟨⟨by decide, (C5_setCurrentIndex_idempotent true (StackState.mk [⟨0, true⟩, ⟨1, false⟩] 0)).2 (by decide)⟩,
   ⟨by decide, (C5_setCurrentIndex_idempotent true (StackState.mk [⟨0, false⟩] (-1))).1 (-7) (by decide)⟩⟩

/-- C6: layoutItemRemoved with an index strictly below currentIndex decrements
currentIndex by exactly one — so it designates the same child as before the
removal — and makes no other change to the current-index state: the child
list is exactly the erasure, no notification is emitted, and no animator
command is issued. -/
theorem C6_remove_below_current_decrements :
    ∀ (ha : Bool) (s : StackState) (pos : Nat),
      (pos : Int) < s.currentIndex →
      removeItemAt ha s pos =
        ({ children := eraseChild s.children pos,
           currentIndex := s.currentIndex - 1 }, [], []) ∧
      itemAtIndex (eraseChild s.children pos) (s.currentIndex - 1) =
        itemAtIndex s.children s.currentIndex := by
  intro ha s pos h
  refine ⟨?_, itemAtIndex_erase_lt s.children pos s.currentIndex h⟩
  unfold removeItemAt layoutItemRemoved
  rw [if_neg (by simp only []; omega), if_pos (by simp only []; omega)]

/-- C6 witness: children [0,1,2] with currentIndex 2 (the spec's removal
shifting example); removing index 0 yields currentIndex 1, the same child. -/
theorem C6_remove_below_current_decrements_witness :
    ((0 : Nat) : Int) < (StackState.mk [⟨0, false⟩, ⟨1, false⟩, ⟨2, true⟩] 2).currentIndex ∧
    (removeItemAt false (StackState.mk [⟨0, false⟩, ⟨1, false⟩, ⟨2, true⟩] 2) 0 =
      ({ children := eraseChild (StackState.mk [⟨0, false⟩, ⟨1, false⟩, ⟨2, true⟩] 2).children 0,
         currentIndex := (StackState.mk [⟨0, false⟩, ⟨1, false⟩, ⟨2, true⟩] 2).currentIndex - 1 }, [], []) ∧
     itemAtIndex (eraseChild (StackState.mk [⟨0, false⟩, ⟨1, false⟩, ⟨2, true⟩] 2).children 0)
         ((StackState.mk [⟨0, false⟩, ⟨1, false⟩, ⟨2, true⟩] 2).currentIndex - 1) =
       itemAtIndex (StackState.mk [⟨0, false⟩, ⟨1, false⟩, ⟨2, true⟩] 2).children
         (StackState.mk [⟨0, false⟩, ⟨1, false⟩, ⟨2, true⟩] 2).currentIndex) :=
  ⟨by decide,
   C6_remove_below_current_decrements false
     (StackState.mk [⟨0, false⟩, ⟨1, false⟩, ⟨2, true⟩] 2) 0 (by decide)⟩

/-- C7: inserting the first child into an empty stack sets currentIndex to 0,
makes the child visible, and emits exactly one notification carrying 0;
inserting a further child at any valid position while children already exist
leaves currentIndex unchanged, makes the new child invisible, and emits no
notification. -/
theorem C7_first_insert_selects_later_inserts_hidden :
    ∀ (s : StackState) (c : Child) (pos : Nat),
      (s.children = [] →
        insertItemAt s 0 c =
          ({ children := [{ c with visible := true }], currentIndex := 0 }, [0])) ∧
      (s.children ≠ [] → pos ≤ s.children.length →
        (insertItemAt s pos c).1.currentIndex = s.currentIndex ∧
        (insertItemAt s pos c).2 = [] ∧
        itemAtIndex (insertItemAt s pos c).1.children (pos : Int) =
          some { c with visible := false }) := by
  intro s c pos
  constructor
  · intro h
    simp [insertItemAt, layoutItemInserted, insertChild, setVis, h]
  · intro hne hle
    have hlen : (insertChild s.children pos c).length = s.children.length + 1 :=
      insertChild_length _ _ _ hle
    have hpos : 0 < s.children.length := List.length_pos.mpr hne
    have h1 : ¬ (insertChild s.children pos c).length = 1 := by omega
    unfold insertItemAt layoutItemInserted
    rw [if_neg (by simpa using h1)]
    refine ⟨rfl, rfl, ?_⟩
    show itemAtIndex (setVis (insertChild s.children pos c) (pos : Int) false) (pos : Int) =
      some { c with visible := false }
    rw [itemAtIndex_setVis_self, itemAtIndex_insert_self s.children pos c hle]
    rfl

/-- C7 witness: the first insertion into the empty stack, then an append to a
one-child stack. -/
theorem C7_first_insert_selects_later_inserts_hidden_witness :
    (initState.children = [] ∧
      insertItemAt initState 0 ⟨5, false⟩ =
        ({ children := [⟨5, true⟩], currentIndex := 0 }, [0])) ∧
    ((StackState.mk [⟨5, true⟩] 0).children ≠ [] ∧
      1 ≤ (StackState.mk [⟨5, true⟩] 0).children.length ∧
      ((insertItemAt (StackState.mk [⟨5, true⟩] 0) 1 ⟨6, true⟩).1.currentIndex =
          (StackState.mk [⟨5, true⟩] 0).currentIndex ∧
        (insertItemAt (StackState.mk [⟨5, true⟩] 0) 1 ⟨6, true⟩).2 = [] ∧
        itemAtIndex (insertItemAt (StackState.mk [⟨5, true⟩] 0) 1 ⟨6, true⟩).1.children
            ((1 : Nat) : Int) =
          some ⟨6, false⟩)) :=
  ⟨⟨rfl, (C7_first_insert_selects_later_inserts_hidden initState ⟨5, false⟩ 0).1 rfl⟩,
   ⟨by decide, by decide,
    (C7_first_insert_selects_later_inserts_hidden (StackState.mk [⟨5, true⟩] 0) ⟨6, true⟩ 1).2
      (by decide) (by decide)⟩⟩

/-! ## Sizing: qskConstrainedValue, heightForWidth / widthForHeight,
layoutItemsSizeHint

Sizes are modelled as exact integers (the source's qreal arithmetic here is
only comparison and selection, no rounding).  Each layout item carries its
per-item constraint functions and its preferred-size hint as functions. -/

/-- Qt::Orientation values used by dynamicConstraintOrientation. -/
inductive Orientation where
  | horizontal
  | vertical
  deriving DecidableEq, Repr

/-- A QskLayoutItem as the sizing code consumes it: the per-item constrained
metrics (QskLayoutConstraint::widthForHeight / heightForWidth applied to the
item), the dynamic-constraint flag with its orientation, and
sizeHint(Qt::PreferredSize, constraint) as a function of the constraint, a
pair whose components are -1 when unconstrained. -/
structure LayoutItem where
  wfh : Int → Int
  hfw : Int → Int
  hasDynamicConstraint : Bool
  dynamicConstraintOrientation : Orientation
  sizeHint : Int × Int → Int × Int

/-- QskLayoutConstraint::Type. -/
inductive ConstraintType where
  | WidthForHeight
  | HeightForWidth
  deriving DecidableEq, Repr

/-- `constrainFunction` of qskConstrainedValue:
`( type == WidthForHeight ) ? widthForHeight : heightForWidth`. -/
def constrainFunction (t : ConstraintType) (it : LayoutItem) (v : Int) : Int :=
  match t with
  | .WidthForHeight => it.wfh v
  | .HeightForWidth => it.hfw v

/-- The accumulation loop of qskConstrainedValue:
`if ( v > constrainedValue ) constrainedValue = v;` over all items. -/
def constrainedMaxLoop (t : ConstraintType) (v : Int) :
    List LayoutItem → Int → Int
  | [], acc => acc
  | it :: rest, acc =>
    constrainedMaxLoop t v rest
      (if acc < constrainFunction t it v then constrainFunction t it v else acc)

/-- qskConstrainedValue (QskStackBox.cpp:14-36): the per-item constrained
metric maximised over every item of the stack, starting from -1. -/
def qskConstrainedValue (t : ConstraintType) (items : List LayoutItem)
    (widthOrHeight : Int) : Int :=
  constrainedMaxLoop t widthOrHeight items (-1)

/-- Modelled from the spec: QskLayoutConstraint::constrainedMetric is code of
this repository that is not under src/ (only its caller is).  Per the spec's
section 4.3, the scalar constrained metric computes the per-child constrained
metric for the given cross-axis value over all children and returns the
maximum, i.e. it evaluates the supplied aggregation function. -/
def constrainedMetric (t : ConstraintType) (items : List LayoutItem)
    (v : Int) : Int :=
  qskConstrainedValue t items v

/-- QskStackBox::heightForWidth. -/
def heightForWidth (items : List LayoutItem) (width : Int) : Int :=
  constrainedMetric .HeightForWidth items width

/-- QskStackBox::widthForHeight. -/
def widthForHeight (items : List LayoutItem) (height : Int) : Int :=
  constrainedMetric .WidthForHeight items height

/-- First pass of layoutItemsSizeHint (QskStackBox.cpp:213-231) restricted to
items without a dynamic constraint: query the preferred hint with no
constraint and keep the per-axis running maximum
(`if ( hint.width() >= width ) width = hint.width();`). -/
def firstPass : List LayoutItem → Int → Int → Int × Int
  | [], w, h => (w, h)
  | it :: rest, w, h =>
    if it.hasDynamicConstraint then
      firstPass rest w h
    else
      firstPass rest
        (if w ≤ (it.sizeHint (-1, -1)).1 then (it.sizeHint (-1, -1)).1 else w)
        (if h ≤ (it.sizeHint (-1, -1)).2 then (it.sizeHint (-1, -1)).2 else h)

/-- The OR-accumulation of dynamic-constraint orientations of the same loop
(`constraintOrientation |= layoutItem->dynamicConstraintOrientation();`),
returned as (has horizontal, has vertical). -/
def constraintOrientations : List LayoutItem → Bool × Bool
  | [] => (false, false)
  | it :: rest =>
    let o := constraintOrientations rest
    if it.hasDynamicConstraint then
      match it.dynamicConstraintOrientation with
      | .horizontal => (true, o.2)
      | .vertical => (o.1, true)
    else o

/-- Second pass, horizontal branch (QskStackBox.cpp:235-252): re-query the
horizontally constrained items holding the height fixed, widening the width
(`if ( hint.width() > width ) width = hint.width();`). -/
def horizontalPass (hFixed : Int) : List LayoutItem → Int → Int
  | [], w => w
  | it :: rest, w =>
    if it.hasDynamicConstraint = true ∧
        it.dynamicConstraintOrientation = Orientation.horizontal then
      horizontalPass hFixed rest
        (if w < (it.sizeHint (-1, hFixed)).1 then (it.sizeHint (-1, hFixed)).1 else w)
    else
      horizontalPass hFixed rest w

/-- Second pass, vertical branch (QskStackBox.cpp:254-271): re-query the
vertically constrained items holding the width fixed, widening the height. -/
def verticalPass (wFixed : Int) : List LayoutItem → Int → Int
  | [], h => h
  | it :: rest, h =>
    if it.hasDynamicConstraint = true ∧
        it.dynamicConstraintOrientation = Orientation.vertical then
      verticalPass wFixed rest
        (if h < (it.sizeHint (wFixed, -1)).2 then (it.sizeHint (wFixed, -1)).2 else h)
    else
      verticalPass wFixed rest h

/-- QskStackBox::layoutItemsSizeHint (QskStackBox.cpp:204-275).  Note the
vertical branch sets `constraint.setWidth( width )` with the width value as
already widened by the horizontal branch. -/
def layoutItemsSizeHint (items : List LayoutItem) : Int × Int :=
  let wh := firstPass items (-1) (-1)
  let ors := constraintOrientations items
  let w1 := if ors.1 = true then horizontalPass wh.2 items wh.1 else wh.1
  let h1 := if ors.2 = true then verticalPass w1 items wh.2 else wh.2
  (w1, h1)

/-- The aggregation as claim C10 words it (a refinement reference point, from
the claim text, not from the source): the vertical branch holds the width
fixed at the FIRST-pass width, before any second-pass widening. -/
def layoutItemsSizeHintSpecC10 (items : List LayoutItem) : Int × Int :=
  let wh := firstPass items (-1) (-1)
  let ors := constraintOrientations items
  let w1 := if ors.1 = true then horizontalPass wh.2 items wh.1 else wh.1
  let h1 := if ors.2 = true then verticalPass wh.1 items wh.2 else wh.2
  (w1, h1)

/-! ## Helper lemmas for the running maxima -/

/-- Left fold of `max` over a list, the common shape of the sizing loops. -/
def listMax : List Int → Int → Int
  | [], acc => acc
  | v :: rest, acc => listMax rest (max acc v)

lemma ite_lt_eq_max (a b : Int) : (if a < b then b else a) = max a b := by
  rcases le_or_lt b a with h | h
  · rw [if_neg (not_lt.mpr h), max_eq_left h]
  · rw [if_pos h, max_eq_right (le_of_lt h)]

lemma ite_le_eq_max (a b : Int) : (if a ≤ b then b else a) = max a b := by
  rcases le_or_lt a b with h | h
  · rw [if_pos h, max_eq_right h]
  · rw [if_neg (not_le.mpr h), max_eq_left (le_of_lt h)]

lemma le_listMax_init (l : List Int) (acc : Int) : acc ≤ listMax l acc := by
  induction l generalizing acc with
  | nil => exact le_refl acc
  | cons v rest ih => exact le_trans (le_max_left acc v) (ih (max acc v))

lemma le_listMax_of_mem {l : List Int} {v : Int} (h : v ∈ l) (acc : Int) :
    v ≤ listMax l acc := by
  induction l generalizing acc with
  | nil => cases h
  | cons x rest ih =>
    rw [List.mem_cons] at h
    rcases h with rfl | h
    · exact le_trans (le_max_right acc v) (le_listMax_init rest (max acc v))
    · exact ih h (max acc x)

lemma listMax_eq_init_or_mem (l : List Int) (acc : Int) :
    listMax l acc = acc ∨ listMax l acc ∈ l := by
  induction l generalizing acc with
  | nil => exact Or.inl rfl
  | cons x rest ih =>
    rcases ih (max acc x) with h | h
    · rcases max_choice acc x with hm | hm
      · exact Or.inl (by rw [listMax, h, hm])
      · exact Or.inr (by rw [listMax, h, hm]; exact List.mem_cons_self x rest)
    · exact Or.inr (List.mem_cons_of_mem x h)

lemma listMax_spec {l : List Int} (hne : l ≠ []) (hnn : ∀ v ∈ l, 0 ≤ v) :
    listMax l (-1) ∈ l ∧ ∀ v ∈ l, v ≤ listMax l (-1) := by
  have hub : ∀ v ∈ l, v ≤ listMax l (-1) := fun v hv => le_listMax_of_mem hv (-1)
  refine ⟨?_, hub⟩
  rcases listMax_eq_init_or_mem l (-1) with h | h
  · exfalso
    cases l with
    | nil => exact hne rfl
    | cons v rest =>
      have h1 := hub v (List.mem_cons_self v rest)
      have h2 := hnn v (List.mem_cons_self v rest)
      omega
  · exact h

lemma constrainedMaxLoop_eq_listMax (t : ConstraintType) (v : Int)
    (items : List LayoutItem) (acc : Int) :
    constrainedMaxLoop t v items acc =
      listMax (items.map (fun it => constrainFunction t it v)) acc := by
  induction items generalizing acc with
  | nil => rfl
  | cons it rest ih =>
    rw [constrainedMaxLoop, ih, List.map_cons, listMax, ite_lt_eq_max]

lemma firstPass_eq_listMax (items : List LayoutItem) (w h : Int) :
    firstPass items w h =
      (listMax ((items.filter (fun it => !it.hasDynamicConstraint)).map
          (fun it => (it.sizeHint (-1, -1)).1)) w,
       listMax ((items.filter (fun it => !it.hasDynamicConstraint)).map
          (fun it => (it.sizeHint (-1, -1)).2)) h) := by
  induction items generalizing w h with
  | nil => rfl
  | cons it rest ih =>
    cases hd : it.hasDynamicConstraint with
    | true => simp [firstPass, hd, List.filter_cons, ih]
    | false =>
      rw [firstPass, if_neg (by simp [hd]), ite_le_eq_max, ite_le_eq_max, ih,
        List.filter_cons]
      simp [hd, listMax]

lemma constraintOrientations_none {items : List LayoutItem}
    (h : ∀ it ∈ items, it.hasDynamicConstraint = false) :
    constraintOrientations items = (false, false) := by
  induction items with
  | nil => rfl
  | cons it rest ih =>
    have hd := h it (List.mem_cons_self it rest)
    simp [constraintOrientations, hd,
      ih (fun x hx => h x (List.mem_cons_of_mem it hx))]

lemma le_horizontalPass (hFixed : Int) (items : List LayoutItem) (w : Int) :
    w ≤ horizontalPass hFixed items w := by
  induction items generalizing w with
  | nil => exact le_refl w
  | cons it rest ih =>
    rw [horizontalPass]
    split
    · rw [ite_lt_eq_max]
      exact le_trans (le_max_left _ _) (ih _)
    · exact ih w

lemma le_verticalPass (wFixed : Int) (items : List LayoutItem) (h : Int) :
    h ≤ verticalPass wFixed items h := by
  induction items generalizing h with
  | nil => exact le_refl h
  | cons it rest ih =>
    rw [verticalPass]
    split
    · rw [ite_lt_eq_max]
      exact le_trans (le_max_left _ _) (ih _)
    · exact ih h

/-- C8: heightForWidth(w) is the maximum over ALL children (visible or not) of
the per-child height-for-width at w, and symmetrically widthForHeight(h); the
maximum is stated as membership plus upper bound over the list of per-child
values (sizes assumed nonnegative, as item metrics are).  The computation
takes only the child list — currentIndex does not enter it — so the result is
independent of which child is current. -/
theorem C8_constrained_metric_is_children_max :
    ∀ (items : List LayoutItem) (w h : Int),
      items ≠ [] →
      (∀ it ∈ items, 0 ≤ it.hfw w) →
      (∀ it ∈ items, 0 ≤ it.wfh h) →
      (heightForWidth items w ∈ items.map (fun it => it.hfw w) ∧
       (∀ it ∈ items, it.hfw w ≤ heightForWidth items w) ∧
       widthForHeight items h ∈ items.map (fun it => it.wfh h) ∧
       (∀ it ∈ items, it.wfh h ≤ widthForHeight items h)) := by
  intro items w h hne hh hw
  have hfwEq : heightForWidth items w =
      listMax (items.map (fun it => it.hfw w)) (-1) := by
    unfold heightForWidth constrainedMetric qskConstrainedValue
    rw [constrainedMaxLoop_eq_listMax]
    rfl
  have hwfEq : widthForHeight items h =
      listMax (items.map (fun it => it.wfh h)) (-1) := by
    unfold widthForHeight constrainedMetric qskConstrainedValue
    rw [constrainedMaxLoop_eq_listMax]
    rfl
  have hmapne : ∀ f : LayoutItem → Int, items.map f ≠ [] := by
    intro f hmap
    exact hne (List.map_eq_nil_iff.mp hmap)
  have h1 := listMax_spec (hmapne (fun it => it.hfw w)) (by
    intro v hv
    rw [List.mem_map] at hv
    obtain ⟨it, hit, rfl⟩ := hv
    exact hh it hit)
  have h2 := listMax_spec (hmapne (fun it => it.wfh h)) (by
    intro v hv
    rw [List.mem_map] at hv
    obtain ⟨it, hit, rfl⟩ := hv
    exact hw it hit)
  refine ⟨?_, ?_, ?_, ?_⟩
  · rw [hfwEq]; exact h1.1
  · intro it hit
    rw [hfwEq]
    exact h1.2 _ (List.mem_map.mpr ⟨it, hit, rfl⟩)
  · rw [hwfEq]; exact h2.1
  · intro it hit
    rw [hwfEq]
    exact h2.2 _ (List.mem_map.mpr ⟨it, hit, rfl⟩)

/-- An unconstrained item whose metrics are constant, for the witnesses. -/
def itemMetricA : LayoutItem :=
  { wfh := fun _ => 3, hfw := fun _ => 7, hasDynamicConstraint := false,
    dynamicConstraintOrientation := Orientation.horizontal,
    sizeHint := fun _ => (100, 50) }

/-- A second unconstrained item for the witnesses. -/
def itemMetricB : LayoutItem :=
  { wfh := fun _ => 5, hfw := fun _ => 2, hasDynamicConstraint := false,
    dynamicConstraintOrientation := Orientation.vertical,
    sizeHint := fun _ => (80, 70) }

/-- C8 witness: two concrete items; heightForWidth picks 7, widthForHeight
picks 5. -/
theorem C8_constrained_metric_is_children_max_witness :
    ([itemMetricA, itemMetricB] ≠ ([] : List LayoutItem) ∧
      (∀ it ∈ [itemMetricA, itemMetricB], 0 ≤ it.hfw 4) ∧
      (∀ it ∈ [itemMetricA, itemMetricB], 0 ≤ it.wfh 9)) ∧
    (heightForWidth [itemMetricA, itemMetricB] 4 ∈
        [itemMetricA, itemMetricB].map (fun it => it.hfw 4) ∧
      (∀ it ∈ [itemMetricA, itemMetricB], it.hfw 4 ≤ heightForWidth [itemMetricA, itemMetricB] 4) ∧
      widthForHeight [itemMetricA, itemMetricB] 9 ∈
        [itemMetricA, itemMetricB].map (fun it => it.wfh 9) ∧
      (∀ it ∈ [itemMetricA, itemMetricB], it.wfh 9 ≤ widthForHeight [itemMetricA, itemMetricB] 9)) :=
  ⟨⟨List.cons_ne_nil _ _, by decide, by decide⟩,
   C8_constrained_metric_is_children_max [itemMetricA, itemMetricB] 4 9
     (List.cons_ne_nil _ _) (by decide) (by decide)⟩

/-- C9: with no dynamically constrained child, layoutItemsSizeHint is the
per-axis maximum of the children's unconstrained preferred sizes, stated as
membership plus upper bound per axis (sizes nonnegative).  currentIndex does
not enter the computation. -/
theorem C9_preferred_size_is_per_axis_max :
    ∀ items : List LayoutItem,
      items ≠ [] →
      (∀ it ∈ items, it.hasDynamicConstraint = false) →
      (∀ it ∈ items, 0 ≤ (it.sizeHint (-1, -1)).1 ∧ 0 ≤ (it.sizeHint (-1, -1)).2) →
      ((layoutItemsSizeHint items).1 ∈ items.map (fun it => (it.sizeHint (-1, -1)).1) ∧
       (∀ it ∈ items, (it.sizeHint (-1, -1)).1 ≤ (layoutItemsSizeHint items).1) ∧
       (layoutItemsSizeHint items).2 ∈ items.map (fun it => (it.sizeHint (-1, -1)).2) ∧
       (∀ it ∈ items, (it.sizeHint (-1, -1)).2 ≤ (layoutItemsSizeHint items).2)) := by
  intro items hne hnd hnn
  have hfilter : items.filter (fun it => !it.hasDynamicConstraint) = items := by
    apply List.filter_eq_self.mpr
    intro a ha
    rw [hnd a ha]
    rfl
  have hors : constraintOrientations items = (false, false) :=
    constraintOrientations_none hnd
  have hsh : layoutItemsSizeHint items =
      (listMax (items.map fun it => (it.sizeHint (-1, -1)).1) (-1),
       listMax (items.map fun it => (it.sizeHint (-1, -1)).2) (-1)) := by
    simp [layoutItemsSizeHint, hors, firstPass_eq_listMax, hfilter]
  have hmapne : ∀ f : LayoutItem → Int, items.map f ≠ [] := by
    intro f hmap
    exact hne (List.map_eq_nil_iff.mp hmap)
  have h1 := listMax_spec (hmapne (fun it => (it.sizeHint (-1, -1)).1)) (by
    intro v hv
    rw [List.mem_map] at hv
    obtain ⟨it, hit, rfl⟩ := hv
    exact (hnn it hit).1)
  have h2 := listMax_spec (hmapne (fun it => (it.sizeHint (-1, -1)).2)) (by
    intro v hv
    rw [List.mem_map] at hv
    obtain ⟨it, hit, rfl⟩ := hv
    exact (hnn it hit).2)
  refine ⟨?_, ?_, ?_, ?_⟩
  · rw [hsh]; exact h1.1
  · intro it hit
    rw [hsh]
    exact h1.2 _ (List.mem_map.mpr ⟨it, hit, rfl⟩)
  · rw [hsh]; exact h2.1
  · intro it hit
    rw [hsh]
    exact h2.2 _ (List.mem_map.mpr ⟨it, hit, rfl⟩)

/-- C9 witness: the spec's example — preferred sizes (100,50) and (80,70),
no dynamic constraints — aggregates to (100,70). -/
theorem C9_preferred_size_is_per_axis_max_witness :
    ([itemMetricA, itemMetricB] ≠ ([] : List LayoutItem) ∧
      (∀ it ∈ [itemMetricA, itemMetricB], it.hasDynamicConstraint = false) ∧
      (∀ it ∈ [itemMetricA, itemMetricB],
        0 ≤ (it.sizeHint (-1, -1)).1 ∧ 0 ≤ (it.sizeHint (-1, -1)).2)) ∧
    layoutItemsSizeHint [itemMetricA, itemMetricB] = (100, 70) ∧
    ((layoutItemsSizeHint [itemMetricA, itemMetricB]).1 ∈
        [itemMetricA, itemMetricB].map (fun it => (it.sizeHint (-1, -1)).1) ∧
      (∀ it ∈ [itemMetricA, itemMetricB],
        (it.sizeHint (-1, -1)).1 ≤ (layoutItemsSizeHint [itemMetricA, itemMetricB]).1) ∧
      (layoutItemsSizeHint [itemMetricA, itemMetricB]).2 ∈
        [itemMetricA, itemMetricB].map (fun it => (it.sizeHint (-1, -1)).2) ∧
      (∀ it ∈ [itemMetricA, itemMetricB],
        (it.sizeHint (-1, -1)).2 ≤ (layoutItemsSizeHint [itemMetricA, itemMetricB]).2)) :=
  ⟨⟨List.cons_ne_nil _ _, by decide, by decide⟩, rfl,
   C9_preferred_size_is_per_axis_max [itemMetricA, itemMetricB]
     (List.cons_ne_nil _ _) (by decide) (by decide)⟩

/-- A plain item fixing the C10 counterexample's first pass at (10, 10). -/
def itemPlainC10 : LayoutItem :=
  { wfh := fun _ => 0, hfw := fun _ => 0, hasDynamicConstraint := false,
    dynamicConstraintOrientation := Orientation.horizontal,
    sizeHint := fun _ => (10, 10) }

/-- A horizontally constrained item widening the width to 20 in the second
pass. -/
def itemHorizC10 : LayoutItem :=
  { wfh := fun _ => 0, hfw := fun _ => 0, hasDynamicConstraint := true,
    dynamicConstraintOrientation := Orientation.horizontal,
    sizeHint := fun _ => (20, 0) }

/-- A vertically constrained item whose height hint equals the width it is
queried with — it tells the two candidate widths apart. -/
def itemVertC10 : LayoutItem :=
  { wfh := fun _ => 0, hfw := fun _ => 0, hasDynamicConstraint := true,
    dynamicConstraintOrientation := Orientation.vertical,
    sizeHint := fun c => (0, c.1) }

/-- C10 (counterexample): the vertical branch of the second pass does NOT hold
the width at the first-pass width: it uses the width as already widened by the
horizontal branch.  With a first pass of (10,10), a horizontal item widening
the width to 20, and a vertical item echoing its queried width as height, the
source computes (20,20) while the claim's reading (width held at the
first-pass 10) yields (20,10). -/
theorem C10_counterexample_second_pass_uses_widened_width :
    layoutItemsSizeHint [itemPlainC10, itemHorizC10, itemVertC10] = (20, 20) ∧
    layoutItemsSizeHintSpecC10 [itemPlainC10, itemHorizC10, itemVertC10] = (20, 10) ∧
    layoutItemsSizeHint [itemPlainC10, itemHorizC10, itemVertC10] ≠
      layoutItemsSizeHintSpecC10 [itemPlainC10, itemHorizC10, itemVertC10] :=
  ⟨rfl, rfl, by decide⟩

/-- C10 (amended): in the second pass, horizontally constrained children are
queried holding the height at the first-pass height; vertically constrained
children are queried holding the width at the width AS ALREADY WIDENED by the
horizontal second pass (which equals the first-pass width when no horizontal
widening happened); and each axis result is only ever widened, never shrunk,
relative to the first pass. -/
theorem C10_amended_two_pass_aggregation :
    ∀ items : List LayoutItem,
      ((layoutItemsSizeHint items).1 =
        (if (constraintOrientations items).1 = true
         then horizontalPass (firstPass items (-1) (-1)).2 items (firstPass items (-1) (-1)).1
         else (firstPass items (-1) (-1)).1)) ∧
      (firstPass items (-1) (-1)).1 ≤ (layoutItemsSizeHint items).1 ∧
      ((layoutItemsSizeHint items).2 =
        (if (constraintOrientations items).2 = true
         then verticalPass (layoutItemsSizeHint items).1 items (firstPass items (-1) (-1)).2
         else (firstPass items (-1) (-1)).2)) ∧
      (firstPass items (-1) (-1)).2 ≤ (layoutItemsSizeHint items).2 := by
  intro items
  have hw1 : (layoutItemsSizeHint items).1 =
      (if (constraintOrientations items).1 = true
       then horizontalPass (firstPass items (-1) (-1)).2 items (firstPass items (-1) (-1)).1
       else (firstPass items (-1) (-1)).1) := rfl
  have hh1 : (layoutItemsSizeHint items).2 =
      (if (constraintOrientations items).2 = true
       then verticalPass (layoutItemsSizeHint items).1 items (firstPass items (-1) (-1)).2
       else (firstPass items (-1) (-1)).2) := rfl
  refine ⟨hw1, ?_, hh1, ?_⟩
  · rw [hw1]
    split
    · exact le_horizontalPass _ _ _
    · exact le_refl _
  · rw [hh1]
    split
    · exact le_verticalPass _ _ _
    · exact le_refl _

end QskStackBox
